import Mathlib

/-!
# Verification of the autoship-mcp agent script core

Shallow embedding of the agent script (`claude-agent.js`): the MCP client's
line framing and request/response correlation (`McpClient.processBuffer`,
`McpClient.sendRequest`), the built-in tool executors (`executeBash`,
`executeBuiltinTool`), the tool dispatch inside `runAgent`, and the
turn-bounded conversation loop of `runAgent`.

External effects (the model service, the shell, the filesystem, the child
MCP process) are modelled as explicit oracle functions passed in as
parameters; everything the script itself computes is translated directly
from the source.
-/

namespace Autoship

/-! ## Transport framing (`McpClient.processBuffer`, lines 159-184)

The client accumulates stdout chunks in `this.buffer`, splits on `"\n"`,
keeps the last (unterminated) segment as the new buffer, and handles each
complete line.  We model the byte stream as `List Char`.
-/

/-- `splitNl s` is `(lines, rest)` where `lines` are the complete
newline-terminated segments of `s` (in order, newline not included) and
`rest` is the trailing segment after the last newline.  This is exactly
`const lines = s.split("\n"); const rest = lines.pop()`. -/
def splitNl : List Char → List (List Char) × List Char
  | [] => ([], [])
  | c :: cs =>
    let p := splitNl cs
    if c = '\n' then ([] :: p.1, p.2)
    else
      match p.1 with
      | [] => ([], c :: p.2)
      | l :: ls => ((c :: l) :: ls, p.2)

/-- Per-line handling inside `processBuffer`: a line is considered only when
`line.trim()` is truthy (some non-whitespace character), and is then passed
to `JSON.parse` wrapped in try/catch.  The parse function is a parameter:
`JSON.parse` is a fixed function applied to each complete line
independently, so framing facts hold for every choice of `parse`. -/
def handleLine {α : Type} (parse : List Char → Option α) (line : List Char) : Option α :=
  if line.any (fun c => ¬ c.isWhitespace) then parse line else none

/-- One `stdout.on("data")` callback: append the chunk to the buffer, split
off the complete lines, keep the trailing segment as the new buffer, and
handle each complete line.  Returns (messages produced, new buffer). -/
def processBuffer {α : Type} (parse : List Char → Option α) (buf chunk : List Char) :
    List α × List Char :=
  let p := splitNl (buf ++ chunk)
  (p.1.filterMap (handleLine parse), p.2)

/-- Feeding a sequence of chunks one at a time, starting from buffer `buf`:
the concatenation of the messages produced by each `processBuffer` call,
together with the final buffer. -/
def feedChunks {α : Type} (parse : List Char → Option α) (buf : List Char) :
    List (List Char) → List α × List Char
  | [] => ([], buf)
  | c :: cs =>
    let p := processBuffer parse buf c
    let q := feedChunks parse p.2 cs
    (p.1 ++ q.1, q.2)

theorem splitNl_nil : splitNl [] = ([], []) := rfl

theorem splitNl_cons (c : Char) (cs : List Char) :
    splitNl (c :: cs) =
      if c = '\n' then ([] :: (splitNl cs).1, (splitNl cs).2)
      else
        match (splitNl cs).1 with
        | [] => ([], c :: (splitNl cs).2)
        | l :: ls => ((c :: l) :: ls, (splitNl cs).2) := rfl

/-- Key splitting lemma: splitting `s ++ t` is splitting `s`, then splitting
its trailing segment glued to `t`. -/
theorem splitNl_append (s t : List Char) :
    splitNl (s ++ t) =
      ((splitNl s).1 ++ (splitNl ((splitNl s).2 ++ t)).1,
        (splitNl ((splitNl s).2 ++ t)).2) := by
  induction s with
  | nil => simp [splitNl_nil]
  | cons c cs ih =>
    rw [List.cons_append, splitNl_cons, splitNl_cons, ih]
    by_cases hc : c = '\n'
    · simp [hc]
    · cases h1 : (splitNl cs).1 with
      | nil => simp [hc, h1, splitNl_cons, List.cons_append]
      | cons l ls => simp [hc, h1]

/-- Processing a chunk `c₁ ++ c₂` at once is processing `c₁`, then `c₂` from
the resulting buffer, concatenating the messages. -/
theorem processBuffer_append {α : Type} (parse : List Char → Option α)
    (buf c₁ c₂ : List Char) :
    processBuffer parse buf (c₁ ++ c₂) =
      ((processBuffer parse buf c₁).1 ++
          (processBuffer parse (processBuffer parse buf c₁).2 c₂).1,
        (processBuffer parse (processBuffer parse buf c₁).2 c₂).2) := by
  simp only [processBuffer]
  rw [← List.append_assoc, splitNl_append]
  simp [List.filterMap_append]

/-- Merging two consecutive chunks into one does not change the messages
produced nor the final buffer. -/
theorem feedChunks_merge {α : Type} (parse : List Char → Option α)
    (buf c₁ c₂ : List Char) (cs : List (List Char)) :
    feedChunks parse buf (c₁ :: c₂ :: cs) = feedChunks parse buf ((c₁ ++ c₂) :: cs) := by
  simp only [feedChunks, processBuffer_append]
  simp [feedChunks]

/-- Feeding a nonempty chunk sequence equals feeding its concatenation as a
single chunk, from any starting buffer. -/
theorem feedChunks_eq_flatten {α : Type} (parse : List Char → Option α)
    (c : List Char) (cs : List (List Char)) (buf : List Char) :
    feedChunks parse buf (c :: cs) = feedChunks parse buf [(c :: cs).flatten] := by
  induction cs generalizing c buf with
  | nil => simp
  | cons c₂ cs ih =>
    rw [feedChunks_merge, ih, List.flatten_cons, List.flatten_cons, List.flatten_cons,
      List.append_assoc]

/-- The buffer retained by `splitNl` is the part after the last newline; it
never contains a newline itself. -/
theorem newline_not_mem_splitNl_snd (s : List Char) : '\n' ∉ (splitNl s).2 := by
  induction s with
  | nil => simp [splitNl_nil]
  | cons c cs ih =>
    rw [splitNl_cons]
    by_cases hc : c = '\n'
    · simpa [hc] using ih
    · cases h1 : (splitNl cs).1 with
      | nil =>
        simp only [hc, ite_false, h1]
        intro hmem
        rcases List.mem_cons.mp hmem with h | h
        · exact hc h.symm
        · exact ih h
      | cons l ls => simpa [hc, h1] using ih

/-! ## Request/response correlation (`McpClient.sendRequest`, lines 191-206,
and the pending-map handling inside `processBuffer`, lines 166-178)

`this.pendingRequests` is a `Map` from the numeric request id to the
`{resolve, reject}` pair of the `Promise` created by `sendRequest`.  We
model the map as an association list of `(request id, call identifier)`
pairs — the call identifier stands for the promise — with the `Map`'s
key-uniqueness as an explicit hypothesis.  Settling a call is recorded as
an explicit event `(call identifier, outcome)`. -/

/-- A parsed incoming JSON-RPC message as `processBuffer` inspects it:
`message.id` (absent for notifications), `message.error` (carrying
`error.message` when present), and `message.result`. -/
structure RpcMsg where
  id : Option Nat
  error : Option String
  result : String
deriving DecidableEq

/-- How a pending call is settled: `resolve(message.result)` or
`reject(new Error(...))` with the given message. -/
inductive Outcome
  | resolved (result : String)
  | rejected (errMsg : String)
deriving DecidableEq

/-- Lines 173-177: `if (message.error) reject(new Error(message.error.message))
else resolve(message.result)`. -/
def outcomeOf (m : RpcMsg) : Outcome :=
  match m.error with
  | some e => Outcome.rejected e
  | none => Outcome.resolved m.result

/-- The pending-request map: association list from request id to call
identifier (the call's promise). -/
abbrev Pending := List (Nat × Nat)

/-- Lines 167-178 of `processBuffer`, for one parsed message: if the message
has an id that is a key of the pending map, delete the entry and settle that
call; otherwise do nothing.  Returns the new map and the settle event, if
any. -/
def deliverMsg (pending : Pending) (m : RpcMsg) : Pending × Option (Nat × Outcome) :=
  match m.id with
  | none => (pending, none)
  | some i =>
    match pending.lookup i with
    | none => (pending, none)
    | some c => (pending.filter (fun p => p.1 != i), some (c, outcomeOf m))

/-- The fixed per-request timeout: `setTimeout(..., 30000)`. -/
def REQUEST_TIMEOUT_MS : Nat := 30000

/-- The rejection message of the timeout path (line 202). -/
def timeoutMessage (method : String) : String :=
  "Request " ++ method ++ " timed out"

/-- The two things that can settle a pending call: an incoming response
processed by `processBuffer`, or the 30-second `setTimeout` callback of
`sendRequest` firing for a given request id. -/
inductive RpcEvent
  | response (m : RpcMsg)
  | timeoutFire (id : Nat) (method : String)
deriving DecidableEq

/-- One event against the pending map.  The timeout callback (lines 199-204)
checks `pendingRequests.has(id)`, and only then deletes the entry and
rejects with the timeout message. -/
def rpcStep (pending : Pending) : RpcEvent → Pending × Option (Nat × Outcome)
  | RpcEvent.response m => deliverMsg pending m
  | RpcEvent.timeoutFire i method =>
    match pending.lookup i with
    | none => (pending, none)
    | some c =>
      (pending.filter (fun p => p.1 != i), some (c, Outcome.rejected (timeoutMessage method)))

/-- Process a sequence of events in arrival order, collecting the settle
events. -/
def rpcRun (pending : Pending) : List RpcEvent → Pending × List (Nat × Outcome)
  | [] => (pending, [])
  | e :: es =>
    let p := rpcStep pending e
    let q := rpcRun p.1 es
    (q.1, p.2.toList ++ q.2)

/-- Whether an event is addressed to request id `i`. -/
def targets (i : Nat) : RpcEvent → Bool
  | RpcEvent.response m => m.id == some i
  | RpcEvent.timeoutFire j _ => j == i

/-- The outcome an event would settle its target with. -/
def eventOutcome : RpcEvent → Outcome
  | RpcEvent.response m => outcomeOf m
  | RpcEvent.timeoutFire _ method => Outcome.rejected (timeoutMessage method)

/-- Registering a fresh request (lines 193-194): `const id = ++this.requestId;
this.pendingRequests.set(id, {resolve, reject})`. -/
def sendRequestReg (requestId : Nat) (pending : Pending) (c : Nat) : Nat × Pending :=
  (requestId + 1, pending ++ [(requestId + 1, c)])

/-- With distinct keys (the `Map` invariant), `lookup` finds exactly the
registered entry. -/
theorem lookup_eq_some_of_mem {p : Pending} {i c : Nat}
    (hkeys : (p.map Prod.fst).Nodup) (hmem : (i, c) ∈ p) :
    p.lookup i = some c := by
  induction p with
  | nil => cases hmem
  | cons q p ih =>
    obtain ⟨k, v⟩ := q
    rw [List.map_cons, List.nodup_cons] at hkeys
    rcases List.mem_cons.mp hmem with h | h
    · rw [show k = i from (Prod.ext_iff.mp h.symm).1, show v = c from (Prod.ext_iff.mp h.symm).2]
      simp [List.lookup]
    · have hne : i ≠ k := by
        intro hik
        exact hkeys.1 (List.mem_map.mpr ⟨(i, c), h, hik⟩)
      have hb : (i == k) = false := beq_eq_false_iff_ne.mpr hne
      simp only [List.lookup, hb]
      exact ih hkeys.2 h

theorem mem_of_lookup_eq_some {p : Pending} {i c : Nat}
    (h : p.lookup i = some c) : (i, c) ∈ p := by
  induction p with
  | nil => simp [List.lookup] at h
  | cons q p ih =>
    obtain ⟨k, v⟩ := q
    by_cases hik : i = k
    · have hb : (i == k) = true := beq_iff_eq.mpr hik
      simp only [List.lookup, hb] at h
      cases h
      exact List.mem_cons.mpr (Or.inl (by rw [hik]))
    · have hb : (i == k) = false := beq_eq_false_iff_ne.mpr hik
      simp only [List.lookup, hb] at h
      exact List.mem_cons_of_mem _ (ih h)

/-- With distinct call identifiers, a call identifier determines its key. -/
theorem key_eq_of_snd_nodup {p : Pending} {i j c : Nat}
    (hcalls : (p.map Prod.snd).Nodup) (hi : (i, c) ∈ p) (hj : (j, c) ∈ p) :
    i = j := by
  induction p with
  | nil => cases hi
  | cons q p ih =>
    rw [List.map_cons, List.nodup_cons] at hcalls
    rcases List.mem_cons.mp hi with h1 | h1 <;> rcases List.mem_cons.mp hj with h2 | h2
    · exact (Prod.ext_iff.mp (h1.trans h2.symm)).1
    · exact absurd (List.mem_map.mpr ⟨(j, c), h2, (Prod.ext_iff.mp h1).2⟩) hcalls.1
    · exact absurd (List.mem_map.mpr ⟨(i, c), h1, (Prod.ext_iff.mp h2).2⟩) hcalls.1
    · exact ih hcalls.2 h1 h2

theorem nodup_map_filter {β : Type} (f : Nat × Nat → β) (g : Nat × Nat → Bool)
    {p : Pending} (h : (p.map f).Nodup) : ((p.filter g).map f).Nodup :=
  ((List.filter_sublist p).map f).nodup h

/-- Any entry surviving one event was already in the map: events never insert. -/
theorem rpcStep_sub {p : Pending} {e : RpcEvent} {q : Nat × Nat}
    (h : q ∈ (rpcStep p e).1) : q ∈ p := by
  cases e with
  | response m =>
    cases hm : m.id with
    | none => simpa [rpcStep, deliverMsg, hm] using h
    | some j =>
      cases hl : p.lookup j with
      | none => simpa [rpcStep, deliverMsg, hm, hl] using h
      | some c =>
        simp only [rpcStep, deliverMsg, hm, hl] at h
        exact List.mem_of_mem_filter h
  | timeoutFire j method =>
    cases hl : p.lookup j with
    | none => simpa [rpcStep, hl] using h
    | some c =>
      simp only [rpcStep, hl] at h
      exact List.mem_of_mem_filter h

theorem rpcRun_sub {es : List RpcEvent} {p : Pending} {q : Nat × Nat}
    (h : q ∈ (rpcRun p es).1) : q ∈ p := by
  induction es generalizing p with
  | nil => simpa [rpcRun] using h
  | cons e es ih =>
    rw [rpcRun] at h
    exact rpcStep_sub (ih h)

/-- A settle event always names a call that was pending. -/
theorem rpcStep_settle_mem {p : Pending} {e : RpcEvent} {c : Nat} {out : Outcome}
    (h : (rpcStep p e).2 = some (c, out)) : ∃ j, (j, c) ∈ p := by
  cases e with
  | response m =>
    cases hm : m.id with
    | none => simp [rpcStep, deliverMsg, hm] at h
    | some j =>
      cases hl : p.lookup j with
      | none => simp [rpcStep, deliverMsg, hm, hl] at h
      | some c' =>
        simp only [rpcStep, deliverMsg, hm, hl] at h
        exact ⟨j, by cases h; exact mem_of_lookup_eq_some hl⟩
  | timeoutFire j method =>
    cases hl : p.lookup j with
    | none => simp [rpcStep, hl] at h
    | some c' =>
      simp only [rpcStep, hl] at h
      exact ⟨j, by cases h; exact mem_of_lookup_eq_some hl⟩

theorem rpcRun_settle_mem {es : List RpcEvent} {p : Pending} {ev : Nat × Outcome}
    (h : ev ∈ (rpcRun p es).2) : ∃ j, (j, ev.1) ∈ p := by
  induction es generalizing p with
  | nil => simp [rpcRun] at h
  | cons e es ih =>
    rw [rpcRun] at h
    rcases List.mem_append.mp h with h1 | h1
    · cases hstep : (rpcStep p e).2 with
      | none => simp [hstep] at h1
      | some ev' =>
        rw [hstep] at h1
        simp only [Option.toList_some, List.mem_singleton] at h1
        subst h1
        obtain ⟨c, out⟩ := ev
        exact rpcStep_settle_mem hstep
    · obtain ⟨j, hj⟩ := ih h1
      exact ⟨j, rpcStep_sub hj⟩

/-- An event addressed to a registered id settles exactly that entry's call
with the event's outcome, deleting the entry. -/
theorem rpcStep_targeted {p : Pending} {e : RpcEvent} {i c : Nat}
    (hkeys : (p.map Prod.fst).Nodup) (hmem : (i, c) ∈ p) (ht : targets i e = true) :
    rpcStep p e = (p.filter (fun q => q.1 != i), some (c, eventOutcome e)) := by
  have hl : p.lookup i = some c := lookup_eq_some_of_mem hkeys hmem
  cases e with
  | response m =>
    have hm : m.id = some i := by simpa [targets] using ht
    simp [rpcStep, deliverMsg, hm, hl, eventOutcome]
  | timeoutFire j method =>
    have hj : j = i := by simpa [targets] using ht
    subst hj
    simp [rpcStep, hl, eventOutcome]

/-- An event not addressed to id `i` keeps the entry `(i, c)`, preserves both
map invariants, and any call it settles is a different call. -/
theorem rpcStep_untargeted {p : Pending} {e : RpcEvent} {i c : Nat}
    (hkeys : (p.map Prod.fst).Nodup) (hcalls : (p.map Prod.snd).Nodup)
    (hmem : (i, c) ∈ p) (ht : targets i e = false) :
    (i, c) ∈ (rpcStep p e).1 ∧
      ((rpcStep p e).1.map Prod.fst).Nodup ∧ ((rpcStep p e).1.map Prod.snd).Nodup ∧
      ∀ ev, (rpcStep p e).2 = some ev → ev.1 ≠ c := by
  have hdel : ∀ j c', j ≠ i → p.lookup j = some c' →
      (i, c) ∈ p.filter (fun q => q.1 != j) ∧
        ((p.filter (fun q => q.1 != j)).map Prod.fst).Nodup ∧
        ((p.filter (fun q => q.1 != j)).map Prod.snd).Nodup ∧ c' ≠ c := by
    intro j c' hji hl
    refine ⟨List.mem_filter.mpr ⟨hmem, by simpa using fun h => hji h.symm⟩,
      nodup_map_filter _ _ hkeys, nodup_map_filter _ _ hcalls, ?_⟩
    intro hcc
    subst hcc
    exact hji (key_eq_of_snd_nodup hcalls (mem_of_lookup_eq_some hl) hmem)
  cases e with
  | response m =>
    cases hm : m.id with
    | none =>
      refine ⟨by simpa [rpcStep, deliverMsg, hm] using hmem, ?_, ?_, ?_⟩ <;>
        simp [rpcStep, deliverMsg, hm, hkeys, hcalls]
    | some j =>
      have hji : j ≠ i := by
        intro h
        rw [h] at hm
        simp [targets, hm] at ht
      cases hl : p.lookup j with
      | none =>
        refine ⟨by simpa [rpcStep, deliverMsg, hm, hl] using hmem, ?_, ?_, ?_⟩ <;>
          simp [rpcStep, deliverMsg, hm, hl, hkeys, hcalls]
      | some c' =>
        obtain ⟨h1, h2, h3, h4⟩ := hdel j c' hji hl
        refine ⟨by simpa [rpcStep, deliverMsg, hm, hl] using h1,
          by simpa [rpcStep, deliverMsg, hm, hl] using h2,
          by simpa [rpcStep, deliverMsg, hm, hl] using h3, ?_⟩
        intro ev hev
        simp only [rpcStep, deliverMsg, hm, hl] at hev
        cases hev
        simpa using h4
  | timeoutFire j method =>
    have hji : j ≠ i := by
      intro h
      simp [targets, h] at ht
    cases hl : p.lookup j with
    | none =>
      refine ⟨by simpa [rpcStep, hl] using hmem, ?_, ?_, ?_⟩ <;>
        simp [rpcStep, hl, hkeys, hcalls]
    | some c' =>
      obtain ⟨h1, h2, h3, h4⟩ := hdel j c' hji hl
      refine ⟨by simpa [rpcStep, hl] using h1, by simpa [rpcStep, hl] using h2,
        by simpa [rpcStep, hl] using h3, ?_⟩
      intro ev hev
      simp only [rpcStep, hl] at hev
      cases hev
      simpa using h4

/-- Characterization of the settle events collected for a registered call:
it is settled exactly by the first event addressed to its id, if any, with
that event's outcome; no other event touches it. -/
theorem rpcRun_filter_eq (es : List RpcEvent) :
    ∀ (p : Pending) (i c : Nat),
      (p.map Prod.fst).Nodup → (p.map Prod.snd).Nodup → (i, c) ∈ p →
      (rpcRun p es).2.filter (fun ev => ev.1 == c) =
        (match es.find? (targets i) with
         | some e => [(c, eventOutcome e)]
         | none => []) := by
  induction es with
  | nil =>
    intro p i c _ _ _
    simp [rpcRun, List.find?]
  | cons e es ih =>
    intro p i c hkeys hcalls hmem
    cases ht : targets i e with
    | true =>
      rw [show (e :: es).find? (targets i) = some e from by simp [List.find?, ht]]
      have hstep := rpcStep_targeted hkeys hmem ht
      simp only [rpcRun, hstep]
      have hrest : ((rpcRun (p.filter (fun q => q.1 != i)) es).2.filter
          (fun ev => ev.1 == c)) = [] := by
        rw [List.filter_eq_nil_iff]
        intro ev hev
        obtain ⟨j, hj⟩ := rpcRun_settle_mem hev
        have hjp : (j, ev.1) ∈ p := List.mem_of_mem_filter hj
        have hji : j ≠ i := by simpa using (List.mem_filter.mp hj).2
        intro hb
        have hevc : ev.1 = c := by simpa using hb
        rw [hevc] at hjp
        exact hji (key_eq_of_snd_nodup hcalls hjp hmem)
      simp [hrest]
    | false =>
      rw [show (e :: es).find? (targets i) = es.find? (targets i) from by
        simp [List.find?, ht]]
      obtain ⟨hmem', hkeys', hcalls', hsafe⟩ := rpcStep_untargeted hkeys hcalls hmem ht
      simp only [rpcRun]
      cases hstep : (rpcStep p e).2 with
      | none =>
        simpa [hstep] using ih (rpcStep p e).1 i c hkeys' hcalls' hmem'
      | some ev =>
        have hne : (ev.1 == c) = false := by
          simpa using hsafe ev hstep
        simpa [hstep, List.filter, hne] using ih (rpcStep p e).1 i c hkeys' hcalls' hmem'

/-- Once an event addressed to the registered id has been processed, the
entry is gone from the pending map for good: events never insert. -/
theorem rpcRun_key_removed (es : List RpcEvent) :
    ∀ (p : Pending) (i c : Nat),
      (p.map Prod.fst).Nodup → (p.map Prod.snd).Nodup → (i, c) ∈ p →
      (es.find? (targets i)).isSome →
      ∀ q ∈ (rpcRun p es).1, q.1 ≠ i := by
  induction es with
  | nil =>
    intro p i c _ _ _ hf
    simp [List.find?] at hf
  | cons e es ih =>
    intro p i c hkeys hcalls hmem hf q hq
    simp only [rpcRun] at hq
    cases ht : targets i e with
    | true =>
      have hstep := rpcStep_targeted hkeys hmem ht
      have hq' : q ∈ (rpcStep p e).1 := rpcRun_sub hq
      rw [hstep] at hq'
      simpa using (List.mem_filter.mp hq').2
    | false =>
      have hf' : (es.find? (targets i)).isSome := by
        rw [show (e :: es).find? (targets i) = es.find? (targets i) from by
          simp [List.find?, ht]] at hf
        exact hf
      obtain ⟨hmem', hkeys', hcalls', _⟩ := rpcStep_untargeted hkeys hcalls hmem ht
      exact ih (rpcStep p e).1 i c hkeys' hcalls' hmem' hf' q hq

theorem find?_targets_map_response (msgs : List RpcMsg) (i : Nat) :
    (msgs.map RpcEvent.response).find? (targets i) =
      Option.map RpcEvent.response (msgs.find? (fun m => m.id == some i)) := by
  induction msgs with
  | nil => rfl
  | cons m ms ih =>
    cases hm : (m.id == some i) with
    | true => simp [List.find?, targets, hm]
    | false => simp [List.find?, targets, hm, ih]

/-- Claim C2: the Transport Framer is chunk-boundary independent.  For every
byte sequence and every partition of it into chunks, feeding the chunks one
at a time to `processBuffer` yields the same message sequence (and the same
final buffer) as feeding the whole sequence as a single chunk, for every
per-line parse function; and the retained buffer is exactly a trailing
partial line, containing no newline. -/
theorem framer_chunk_boundary_independent {α : Type} (parse : List Char → Option α)
    (c : List Char) (cs : List (List Char)) :
    feedChunks parse [] (c :: cs) = feedChunks parse [] [(c :: cs).flatten] ∧
      '\n' ∉ (feedChunks parse [] (c :: cs)).2 := by
  refine ⟨feedChunks_eq_flatten parse c cs [], ?_⟩
  rw [feedChunks_eq_flatten parse c cs []]
  simpa [feedChunks, processBuffer] using
    newline_not_mem_splitNl_snd ((c :: cs).flatten)

/-- Claim C3: each `sendRequest` call is settled by exactly the response whose
id equals the id the call allocated, for every arrival order of responses
(`msgs` ranges over all permutations): the settle events for the call
registered as `(i, c)` consist exactly of the outcome of the first response
with id `i` — resolution with its result, or rejection with its error
message — and of nothing else. -/
theorem sendRequest_correlated_by_id (p : Pending) (msgs : List RpcMsg) (i c : Nat)
    (hkeys : (p.map Prod.fst).Nodup) (hcalls : (p.map Prod.snd).Nodup)
    (hmem : (i, c) ∈ p) :
    (rpcRun p (msgs.map RpcEvent.response)).2.filter (fun ev => ev.1 == c) =
      (match msgs.find? (fun m => m.id == some i) with
       | some m => [(c, outcomeOf m)]
       | none => []) := by
  rw [rpcRun_filter_eq (msgs.map RpcEvent.response) p i c hkeys hcalls hmem,
    find?_targets_map_response]
  cases msgs.find? (fun m => m.id == some i) with
  | none => rfl
  | some m => simp [eventOutcome]

/-- Witness for C3: two pending calls, responses arriving out of order; the
call registered with id 1 is settled exactly by the (second-arriving)
response with id 1, a rejection with that response's error message. -/
theorem sendRequest_correlated_by_id_witness :
    (rpcRun [(1, 10), (2, 20)]
        ([⟨some 2, none, "b"⟩, ⟨some 1, some "remote failed", "a"⟩].map
          RpcEvent.response)).2.filter (fun ev => ev.1 == 10) =
      [(10, Outcome.rejected "remote failed")] := by
  have h := sendRequest_correlated_by_id [(1, 10), (2, 20)]
    [⟨some 2, none, "b"⟩, ⟨some 1, some "remote failed", "a"⟩] 1 10
    (by decide) (by decide) (by decide)
  rw [h]
  rfl

/-- Claim C4: a pending call is settled at most once, and when the first
event addressed to its id is the 30-second timeout firing, the call is
rejected with the timeout error and its entry is removed from the pending
map — a response arriving after the timeout fired (or a timeout firing
after the response) has no effect, since the events addressed to the id
after the first one settle nothing. -/
theorem sendRequest_timeout_settles_once (p : Pending) (es : List RpcEvent)
    (i c : Nat) (method : String)
    (hkeys : (p.map Prod.fst).Nodup) (hcalls : (p.map Prod.snd).Nodup)
    (hmem : (i, c) ∈ p) :
    (rpcRun p es).2.countP (fun ev => ev.1 == c) ≤ 1 ∧
      (es.find? (targets i) = some (RpcEvent.timeoutFire i method) →
        (rpcRun p es).2.filter (fun ev => ev.1 == c) =
          [(c, Outcome.rejected (timeoutMessage method))] ∧
        ∀ q ∈ (rpcRun p es).1, q.1 ≠ i) := by
  constructor
  · rw [List.countP_eq_length_filter, rpcRun_filter_eq es p i c hkeys hcalls hmem]
    cases es.find? (targets i) <;> simp
  · intro hf
    constructor
    · rw [rpcRun_filter_eq es p i c hkeys hcalls hmem, hf]
      simp [eventOutcome]
    · exact rpcRun_key_removed es p i c hkeys hcalls hmem (by simp [hf])

/-- Witness for C4: the timeout for id 1 fires first, then the (too late)
response with id 1 arrives: the call is rejected once with the timeout
message, the late response settles nothing, and the entry is gone. -/
theorem sendRequest_timeout_settles_once_witness :
    (rpcRun [(1, 10)]
        [RpcEvent.timeoutFire 1 "tools/call",
          RpcEvent.response ⟨some 1, none, "late"⟩]).2.countP
        (fun ev => ev.1 == 10) ≤ 1 ∧
      ((rpcRun [(1, 10)]
          [RpcEvent.timeoutFire 1 "tools/call",
            RpcEvent.response ⟨some 1, none, "late"⟩]).2.filter
          (fun ev => ev.1 == 10) =
        [(10, Outcome.rejected (timeoutMessage "tools/call"))] ∧
        ∀ q ∈ (rpcRun [(1, 10)]
            [RpcEvent.timeoutFire 1 "tools/call",
              RpcEvent.response ⟨some 1, none, "late"⟩]).1, q.1 ≠ 1) := by
  have h := sendRequest_timeout_settles_once [(1, 10)]
    [RpcEvent.timeoutFire 1 "tools/call", RpcEvent.response ⟨some 1, none, "late"⟩]
    1 10 "tools/call" (by decide) (by decide) (by decide)
  exact ⟨h.1, h.2 (by rfl)⟩

/-- Claim C9: a parsed message whose id is absent from the pending map
(never issued, already settled, or no id at all) is discarded: the map and
the absence of a settle event are unchanged; and in every case, entries
registered under a different id survive the delivery untouched. -/
theorem delivery_discards_unmatched (p : Pending) (m : RpcMsg) :
    ((∀ i, m.id = some i → p.lookup i = none) → deliverMsg p m = (p, none)) ∧
      ∀ j c, (j, c) ∈ p → m.id ≠ some j → (j, c) ∈ (deliverMsg p m).1 := by
  constructor
  · intro h
    cases hm : m.id with
    | none => simp [deliverMsg, hm]
    | some i => simp [deliverMsg, hm, h i hm]
  · intro j c hmem hne
    cases hm : m.id with
    | none => simpa [deliverMsg, hm] using hmem
    | some i =>
      cases hl : p.lookup i with
      | none => simpa [deliverMsg, hm, hl] using hmem
      | some c' =>
        simp only [deliverMsg, hm, hl]
        refine List.mem_filter.mpr ⟨hmem, ?_⟩
        have hji : j ≠ i := by
          intro h
          subst h
          exact hne hm
        simpa using hji

/-- Witness for C9: a response with id 3, absent from the map, changes
nothing; the entries for ids 1 and 2 survive. -/
theorem delivery_discards_unmatched_witness :
    deliverMsg [(1, 10), (2, 20)] ⟨some 3, none, "r"⟩ = ([(1, 10), (2, 20)], none) ∧
      (1, 10) ∈ (deliverMsg [(1, 10), (2, 20)] ⟨some 3, none, "r"⟩).1 := by
  have h := delivery_discards_unmatched [(1, 10), (2, 20)] ⟨some 3, none, "r"⟩
  refine ⟨h.1 ?_, h.2 1 10 (by decide) (by decide)⟩
  intro i hi
  cases hi
  rfl

/-! ## Built-in tool executors (`executeBash` lines 299-334,
`executeBuiltinTool` lines 337-368)

The shell and the filesystem are oracles; everything the script computes
from their answers is translated directly. -/

/-- What the spawned `bash -c` subprocess does: either its `close` event
fires with an exit code and the captured stdout/stderr, or the `error`
event fires with a message. -/
inductive BashOut
  | closed (code : Int) (stdout stderr : String)
  | spawnError (msg : String)
deriving DecidableEq

/-- The object `executeBash` resolves with. -/
structure BashResult where
  success : Bool
  output : String
  exitCode : Int
deriving DecidableEq

/-- Lines 299-334: combined output is stdout, then a `STDERR:` section only
when stderr is nonempty; an empty combined output becomes `(no output)`;
spawn failure yields exit code -1 and an error text. -/
def executeBash (shell : String → BashOut) (command : String) : BashResult :=
  match shell command with
  | BashOut.closed code stdout stderr =>
    let output := stdout ++ (if stderr = "" then "" else "\nSTDERR:\n" ++ stderr)
    ⟨code == 0, if output = "" then "(no output)" else output, code⟩
  | BashOut.spawnError msg =>
    ⟨false, "Error spawning process: " ++ msg, -1⟩

/-- The fields of `block.input` that the built-in executors read:
`input.command`, `input.path`, `input.content`, `input.recursive`.  An
absent string field is modelled as `""` (both `undefined` and `""` are
falsy where the code tests them). -/
structure ToolInput where
  command : String := ""
  path : String := ""
  content : String := ""
  recursive : Bool := false
deriving DecidableEq

/-- The local effect oracles: the shell, `readFile` (error message or
content) and `writeFile` (an error message on failure). -/
structure Sys where
  shell : String → BashOut
  readF : String → Except String String
  writeF : String → String → Option String

/-- A tool definition as exposed to the model: name and description
(lines 230-296; the input schemas are opaque to the loop logic). -/
structure ToolDef where
  name : String
  description : String
deriving DecidableEq

def BUILTIN_TOOLS : List ToolDef :=
  [⟨"bash",
    "Execute a bash command. Use this for git operations, running tests, and other shell commands."⟩,
    ⟨"read_file", "Read the contents of a file"⟩,
    ⟨"write_file", "Write content to a file (creates or overwrites)"⟩,
    ⟨"list_files", "List files in a directory"⟩]

def builtinToolNames : List String := BUILTIN_TOOLS.map ToolDef.name

/-- Lines 337-368: the `switch (name)` of `executeBuiltinTool`.  Every
branch returns a string — errors become descriptive text, never
exceptions. -/
def executeBuiltinTool (sys : Sys) (name : String) (input : ToolInput) : String :=
  if name = "bash" then
    let result := executeBash sys.shell input.command
    "Exit code: " ++ toString result.exitCode ++ "\n" ++ result.output
  else if name = "read_file" then
    match sys.readF input.path with
    | Except.ok content => content
    | Except.error msg => "Error reading file: " ++ msg
  else if name = "write_file" then
    match sys.writeF input.path input.content with
    | none => "Successfully wrote to " ++ input.path
    | some msg => "Error writing file: " ++ msg
  else if name = "list_files" then
    let listPath := if input.path = "" then "." else input.path
    let flags := if input.recursive then "-laR" else "-la"
    (executeBash sys.shell ("ls " ++ flags ++ " \"" ++ listPath ++ "\"")).output
  else "Unknown tool: " ++ name

/-! ## Tool dispatch inside `runAgent` (lines 479-513) -/

/-- The value `mcp.callTool` resolves with: an optional `content` array
(its items' `text` fields) and, as parse fallback, its JSON
serialization. -/
structure McpResult where
  content : Option (List String)
  stringified : String
deriving DecidableEq

/-- Line 488-490: `mcpResult.content?.map((c) => c.text).join("\n") ||
JSON.stringify(mcpResult)` — absent content or an empty join falls back to
the serialization. -/
def mcpResultText (r : McpResult) : String :=
  match r.content with
  | some items =>
    let joined := String.intercalate "\n" items
    if joined = "" then r.stringified else joined
  | none => r.stringified

/-- The remote call oracle: `Except.error e` models the promise rejecting
(remote RPC error or the 30s timeout) with `err.message = e`. -/
abbrev McpCall := String → ToolInput → Except String McpResult

/-- Lines 486-493: the `try`/`catch` around `mcp.callTool` — a rejection is
caught and becomes the text `MCP tool error: <message>`. -/
def mcpToolResult (r : Except String McpResult) : String :=
  match r with
  | Except.ok v => mcpResultText v
  | Except.error e => "MCP tool error: " ++ e

/-- JavaScript `s.startsWith(t)`: the first `t.length` characters of `s`
are exactly `t`. -/
def strStartsWith (s t : String) : Bool :=
  s.data.take t.data.length == t.data

/-- Lines 483-496: route by name — names starting with `mcp_` go to the RPC
client with the first four characters (`mcp_`) stripped (`block.name.slice(4)`);
all other names go to the built-in executor. -/
def dispatchTool (sys : Sys) (mcp : McpCall) (name : String) (input : ToolInput) : String :=
  if strStartsWith name "mcp_" then
    mcpToolResult (mcp (name.drop 4) input)
  else
    executeBuiltinTool sys name input

/-! ## Conversation loop (`runAgent`, lines 370-525) -/

/-- Content blocks of the conversation: the model emits `text` and
`tool_use` blocks; the loop answers with `tool_result` blocks.  The
`tool_result` objects the loop builds (lines 507-511) carry only `type`,
`tool_use_id` and `content`; the optional `is_error` field of the API is
modelled explicitly so that its absence (`none`) is observable. -/
inductive ContentBlock
  | text (s : String)
  | toolUse (id name : String) (input : ToolInput)
  | toolResult (toolUseId : String) (content : String) (isError : Option Bool)
deriving DecidableEq

structure Message where
  role : String
  content : List ContentBlock
deriving DecidableEq

/-- The model's answer: content blocks plus `stop_reason`. -/
structure ModelResponse where
  content : List ContentBlock
  stopReason : String
deriving DecidableEq

def isText : ContentBlock → Bool
  | ContentBlock.text _ => true
  | _ => false

def isToolUse : ContentBlock → Bool
  | ContentBlock.toolUse _ _ _ => true
  | _ => false

/-- Lines 451-464: text and tool_use blocks are pushed verbatim, in order,
onto the assistant message. -/
def assistantContentOf (content : List ContentBlock) : List ContentBlock :=
  content.filter (fun b => isText b || isToolUse b)

/-- Line 449/456: `hasToolUse` is set when some block is a tool_use. -/
def hasToolUse (content : List ContentBlock) : Bool := content.any isToolUse

/-- Lines 478-513: one `tool_result` block per tool_use block, in order,
with the full result text as content and no `is_error` field. -/
def toolResultsFor (sys : Sys) (mcp : McpCall) (content : List ContentBlock) :
    List ContentBlock :=
  content.filterMap fun b =>
    match b with
    | ContentBlock.toolUse id name input =>
      some (ContentBlock.toolResult id (dispatchTool sys mcp name input) none)
    | _ => none

/-- Lines 499-502: the console copy of a result is cut to 500 characters
with a truncation marker. -/
def truncateForLog (result : String) : String :=
  if result.length > 500 then result.take 500 ++ "\n... (truncated)" else result

/-- `truncatedResult.split("\n").join("\n   ")`: every newline gets three
spaces of indentation appended. -/
def logIndent : List Char → List Char
  | [] => []
  | c :: cs =>
    if c = '\n' then '\n' :: ' ' :: ' ' :: ' ' :: logIndent cs
    else c :: logIndent cs

/-- Lines 503-505: the console line printed for one result (newlines
indented). -/
def logLineFor (result : String) : String :=
  "\n   Result: " ++ String.mk (logIndent (truncateForLog result).data)

/-- The console lines printed for the results of one turn. -/
def toolLogsFor (sys : Sys) (mcp : McpCall) (content : List ContentBlock) :
    List String :=
  content.filterMap fun b =>
    match b with
    | ContentBlock.toolUse _ name input =>
      some (logLineFor (dispatchTool sys mcp name input))
    | _ => none

/-- The tool_use blocks of a response, in order — the invocations the loop
executes for that turn. -/
def toolUsesOf (content : List ContentBlock) : List ContentBlock :=
  content.filter isToolUse

/-- Line 37: `const MAX_TURNS = 50`. -/
def MAX_TURNS : Nat := 50

/-- The observable outcome of a run: final history, final value of `turn`,
number of model calls made, the tool_use blocks actually executed (in
order), the per-result console lines, whether "Agent completed" was printed
(the `break` path), and whether "Max turns reached" was printed (the
`turn >= MAX_TURNS` check after the loop). -/
structure AgentResult where
  messages : List Message
  turns : Nat
  modelCalls : Nat
  executed : List ContentBlock
  toolLogs : List String
  completedNaturally : Bool
  maxTurnsReported : Bool
deriving DecidableEq

/-- The model service oracle: full history in, response out. -/
abbrev Model := List Message → ModelResponse

/-- Lines 432-517: the `while (turn < MAX_TURNS)` loop, with `fuel` the
number of remaining admissible iterations (`MAX_TURNS - turn`).  Each
iteration increments `turn`, calls the model once, appends the assistant
message, and either breaks (no tool_use block, or stop reason
`"end_turn"`) or executes every tool_use block of the response and appends
one user message holding all the results. -/
def runFrom (model : Model) (sys : Sys) (mcp : McpCall) :
    Nat → Nat → List Message → AgentResult
  | 0, turn, msgs =>
    ⟨msgs, turn, 0, [], [], false, decide (MAX_TURNS ≤ turn)⟩
  | fuel + 1, turn, msgs =>
    let response := model msgs
    let msgs1 := msgs ++ [⟨"assistant", assistantContentOf response.content⟩]
    if !(hasToolUse response.content) || response.stopReason == "end_turn" then
      ⟨msgs1, turn + 1, 1, [], [], true, decide (MAX_TURNS ≤ turn + 1)⟩
    else
      let results := toolResultsFor sys mcp response.content
      let msgs2 := msgs1 ++ [⟨"user", results⟩]
      let rest := runFrom model sys mcp fuel (turn + 1) msgs2
      ⟨rest.messages, rest.turns, rest.modelCalls + 1,
        toolUsesOf response.content ++ rest.executed,
        toolLogsFor sys mcp response.content ++ rest.toolLogs,
        rest.completedNaturally, rest.maxTurnsReported⟩

/-- Lines 429-430 and 433: history seeded with the operator prompt, `turn`
starting at 0, budget `MAX_TURNS`. -/
def runAgent (model : Model) (sys : Sys) (mcp : McpCall) (prompt : String) :
    AgentResult :=
  runFrom model sys mcp MAX_TURNS 0 [⟨"user", [ContentBlock.text prompt]⟩]

/-- Unfolding one iteration that breaks out of the loop. -/
theorem runFrom_break (model : Model) (sys : Sys) (mcp : McpCall)
    (fuel turn : Nat) (msgs : List Message)
    (h : (!(hasToolUse (model msgs).content) ||
        ((model msgs).stopReason == "end_turn")) = true) :
    runFrom model sys mcp (fuel + 1) turn msgs =
      ⟨msgs ++ [⟨"assistant", assistantContentOf (model msgs).content⟩],
        turn + 1, 1, [], [], true, decide (MAX_TURNS ≤ turn + 1)⟩ := by
  simp only [runFrom, h, if_true]

/-- Unfolding one iteration that executes tools and loops. -/
theorem runFrom_continue (model : Model) (sys : Sys) (mcp : McpCall)
    (fuel turn : Nat) (msgs : List Message)
    (h : (!(hasToolUse (model msgs).content) ||
        ((model msgs).stopReason == "end_turn")) = false) :
    runFrom model sys mcp (fuel + 1) turn msgs =
      ⟨(runFrom model sys mcp fuel (turn + 1)
          ((msgs ++ [⟨"assistant", assistantContentOf (model msgs).content⟩]) ++
            [⟨"user", toolResultsFor sys mcp (model msgs).content⟩])).messages,
        (runFrom model sys mcp fuel (turn + 1)
          ((msgs ++ [⟨"assistant", assistantContentOf (model msgs).content⟩]) ++
            [⟨"user", toolResultsFor sys mcp (model msgs).content⟩])).turns,
        (runFrom model sys mcp fuel (turn + 1)
          ((msgs ++ [⟨"assistant", assistantContentOf (model msgs).content⟩]) ++
            [⟨"user", toolResultsFor sys mcp (model msgs).content⟩])).modelCalls + 1,
        toolUsesOf (model msgs).content ++
          (runFrom model sys mcp fuel (turn + 1)
            ((msgs ++ [⟨"assistant", assistantContentOf (model msgs).content⟩]) ++
              [⟨"user", toolResultsFor sys mcp (model msgs).content⟩])).executed,
        toolLogsFor sys mcp (model msgs).content ++
          (runFrom model sys mcp fuel (turn + 1)
            ((msgs ++ [⟨"assistant", assistantContentOf (model msgs).content⟩]) ++
              [⟨"user", toolResultsFor sys mcp (model msgs).content⟩])).toolLogs,
        (runFrom model sys mcp fuel (turn + 1)
          ((msgs ++ [⟨"assistant", assistantContentOf (model msgs).content⟩]) ++
            [⟨"user", toolResultsFor sys mcp (model msgs).content⟩])).completedNaturally,
        (runFrom model sys mcp fuel (turn + 1)
          ((msgs ++ [⟨"assistant", assistantContentOf (model msgs).content⟩]) ++
            [⟨"user", toolResultsFor sys mcp (model msgs).content⟩])).maxTurnsReported⟩ := by
  simp only [runFrom, h, if_false]
  rfl

/-- Each loop iteration advances the turn counter. -/
theorem runFrom_turns_lower (model : Model) (sys : Sys) (mcp : McpCall) (fuel : Nat) :
    ∀ (turn : Nat) (msgs : List Message),
      turn + 1 ≤ (runFrom model sys mcp (fuel + 1) turn msgs).turns := by
  induction fuel with
  | zero =>
    intro turn msgs
    cases h : (!(hasToolUse (model msgs).content) ||
        ((model msgs).stopReason == "end_turn")) with
    | true => rw [runFrom_break model sys mcp 0 turn msgs h]
    | false =>
      rw [runFrom_continue model sys mcp 0 turn msgs h]
      simp [runFrom]
  | succ fuel ih =>
    intro turn msgs
    cases h : (!(hasToolUse (model msgs).content) ||
        ((model msgs).stopReason == "end_turn")) with
    | true => rw [runFrom_break model sys mcp (fuel + 1) turn msgs h]
    | false =>
      rw [runFrom_continue model sys mcp (fuel + 1) turn msgs h]
      dsimp only
      have := ih (turn + 1)
        ((msgs ++ [⟨"assistant", assistantContentOf (model msgs).content⟩]) ++
          [⟨"user", toolResultsFor sys mcp (model msgs).content⟩])
      omega

/-- The history only grows: everything in the history stays in it. -/
theorem runFrom_messages_mono (model : Model) (sys : Sys) (mcp : McpCall) (fuel : Nat) :
    ∀ (turn : Nat) (msgs : List Message) (m : Message), m ∈ msgs →
      m ∈ (runFrom model sys mcp fuel turn msgs).messages := by
  induction fuel with
  | zero =>
    intro turn msgs m hm
    simpa [runFrom] using hm
  | succ fuel ih =>
    intro turn msgs m hm
    cases h : (!(hasToolUse (model msgs).content) ||
        ((model msgs).stopReason == "end_turn")) with
    | true =>
      rw [runFrom_break model sys mcp fuel turn msgs h]
      exact List.mem_append_left _ hm
    | false =>
      rw [runFrom_continue model sys mcp fuel turn msgs h]
      exact ih (turn + 1) _ m
        (List.mem_append_left _ (List.mem_append_left _ hm))

/-- Turn accounting: one increment per model call; the counter never exceeds
its budget; a run that did not complete naturally exhausted the budget, and
then the max-turns report fires exactly when the final counter reached
`MAX_TURNS`. -/
theorem runFrom_accounting (model : Model) (sys : Sys) (mcp : McpCall) (fuel : Nat) :
    ∀ (turn : Nat) (msgs : List Message),
      (runFrom model sys mcp fuel turn msgs).turns =
        turn + (runFrom model sys mcp fuel turn msgs).modelCalls ∧
      (runFrom model sys mcp fuel turn msgs).turns ≤ turn + fuel ∧
      ((runFrom model sys mcp fuel turn msgs).completedNaturally = false →
        (runFrom model sys mcp fuel turn msgs).turns = turn + fuel ∧
        (runFrom model sys mcp fuel turn msgs).maxTurnsReported =
          decide (MAX_TURNS ≤ turn + fuel)) := by
  induction fuel with
  | zero =>
    intro turn msgs
    simp [runFrom]
  | succ fuel ih =>
    intro turn msgs
    cases h : (!(hasToolUse (model msgs).content) ||
        ((model msgs).stopReason == "end_turn")) with
    | true =>
      rw [runFrom_break model sys mcp fuel turn msgs h]
      dsimp only
      refine ⟨by omega, by omega, ?_⟩
      intro hfalse
      simp at hfalse
    | false =>
      rw [runFrom_continue model sys mcp fuel turn msgs h]
      dsimp only
      obtain ⟨h1, h2, h3⟩ := ih (turn + 1)
        ((msgs ++ [⟨"assistant", assistantContentOf (model msgs).content⟩]) ++
          [⟨"user", toolResultsFor sys mcp (model msgs).content⟩])
      refine ⟨by omega, by omega, ?_⟩
      intro hnc
      obtain ⟨h4, h5⟩ := h3 hnc
      have harith : turn + 1 + fuel = turn + (fuel + 1) := by omega
      rw [harith] at h4 h5
      exact ⟨h4, h5⟩

theorem runFrom_turns_lower_of_pos (model : Model) (sys : Sys) (mcp : McpCall)
    {fuel : Nat} (hf : 1 ≤ fuel) :
    ∀ (turn : Nat) (msgs : List Message),
      turn + 1 ≤ (runFrom model sys mcp fuel turn msgs).turns := by
  obtain ⟨fuel', rfl⟩ : ∃ f, fuel = f + 1 := ⟨fuel - 1, by omega⟩
  exact runFrom_turns_lower model sys mcp fuel'

/-! ## Concrete oracles used as witnesses and counterexamples -/

def sysTrivial : Sys :=
  ⟨fun _ => BashOut.closed 0 "" "", fun _ => Except.error "ENOENT", fun _ _ => none⟩

def sysEcho : Sys :=
  ⟨fun c => if c = "echo hi" then BashOut.closed 0 "hi\n" "" else BashOut.closed 1 "" "",
    fun _ => Except.error "ENOENT", fun _ _ => none⟩

def mcpFail : McpCall := fun _ _ => Except.error "boom"

def mcpLong : McpCall :=
  fun _ _ => Except.ok ⟨some [String.mk (List.replicate 501 'a')], "serialized"⟩

def modelDone : Model := fun _ => ⟨[ContentBlock.text "done"], "end_turn"⟩

def modelToolUseEndTurn : Model :=
  fun _ => ⟨[ContentBlock.text "working",
    ContentBlock.toolUse "toolu_1" "bash" ⟨"echo hi", "", "", false⟩], "end_turn"⟩

def modelAlwaysTool : Model :=
  fun _ => ⟨[ContentBlock.toolUse "toolu_0" "bash" ⟨"true", "", "", false⟩], "tool_use"⟩

def modelMcpOnce : Model := fun msgs =>
  if msgs.length == 1 then
    ⟨[ContentBlock.toolUse "toolu_9" "mcp_list_pending_tasks" ⟨"", "", "", false⟩],
      "tool_use"⟩
  else ⟨[ContentBlock.text "ok"], "end_turn"⟩

def modelBashOnce : Model := fun msgs =>
  if msgs.length == 1 then
    ⟨[ContentBlock.toolUse "toolu_2" "bash" ⟨"echo hi", "", "", false⟩], "tool_use"⟩
  else ⟨[ContentBlock.text "done"], "end_turn"⟩

def modelLongOnce : Model := fun msgs =>
  if msgs.length == 1 then
    ⟨[ContentBlock.toolUse "toolu_3" "mcp_big" ⟨"", "", "", false⟩], "tool_use"⟩
  else ⟨[ContentBlock.text "ok"], "end_turn"⟩

/-! ## Claims about the conversation loop -/

/-- Counterexample to claim C1 as stated: when the model's response contains
a tool-invocation block but the stop reason is `end_turn`, the loop DOES
terminate (prints "Agent completed" after one turn, executing nothing) —
the stop-reason disjunct of line 470 overrides the tool-invocation check. -/
theorem loop_ends_despite_tool_use_counterexample :
    hasToolUse (modelToolUseEndTurn [⟨"user", [ContentBlock.text "go"]⟩]).content = true ∧
      (runAgent modelToolUseEndTurn sysTrivial mcpFail "go").completedNaturally = true ∧
      (runAgent modelToolUseEndTurn sysTrivial mcpFail "go").turns = 1 ∧
      (runAgent modelToolUseEndTurn sysTrivial mcpFail "go").executed = [] := by
  decide

/-- Claim C1 (amended): the loop terminates at the current turn exactly when
the response contains no tool-invocation blocks OR the stop reason is
`"end_turn"` (the disjunction of line 470); on termination the current
response's invocations are not executed and "Agent completed" is reported. -/
theorem loop_done_iff_no_tool_use_or_end_turn (model : Model) (sys : Sys) (mcp : McpCall)
    (fuel turn : Nat) (msgs : List Message) :
    ((runFrom model sys mcp (fuel + 2) turn msgs).turns = turn + 1 ↔
      (hasToolUse (model msgs).content = false ∨ (model msgs).stopReason = "end_turn")) ∧
    ((hasToolUse (model msgs).content = false ∨ (model msgs).stopReason = "end_turn") →
      (runFrom model sys mcp (fuel + 2) turn msgs).executed = [] ∧
      (runFrom model sys mcp (fuel + 2) turn msgs).completedNaturally = true) := by
  cases h : (!(hasToolUse (model msgs).content) ||
      ((model msgs).stopReason == "end_turn")) with
  | true =>
    have hp : hasToolUse (model msgs).content = false ∨
        (model msgs).stopReason = "end_turn" := by
      simpa using h
    rw [runFrom_break model sys mcp (fuel + 1) turn msgs h]
    dsimp only
    exact ⟨iff_of_true rfl hp, fun _ => ⟨rfl, rfl⟩⟩
  | false =>
    have hp : ¬(hasToolUse (model msgs).content = false ∨
        (model msgs).stopReason = "end_turn") := by
      intro hc
      rcases hc with hc | hc
      · rw [hc] at h
        simp at h
      · rw [hc] at h
        simp at h
    rw [runFrom_continue model sys mcp (fuel + 1) turn msgs h]
    dsimp only
    have hlow := runFrom_turns_lower model sys mcp fuel (turn + 1)
      ((msgs ++ [⟨"assistant", assistantContentOf (model msgs).content⟩]) ++
        [⟨"user", toolResultsFor sys mcp (model msgs).content⟩])
    exact ⟨iff_of_false (by omega) hp, fun hc => absurd hc hp⟩

/-- Witness for the amended C1: a text-only response ends the loop with
nothing executed. -/
theorem loop_done_iff_no_tool_use_or_end_turn_witness :
    (runFrom modelDone sysTrivial mcpFail 2 0
        [⟨"user", [ContentBlock.text "go"]⟩]).executed = [] ∧
      (runFrom modelDone sysTrivial mcpFail 2 0
        [⟨"user", [ContentBlock.text "go"]⟩]).completedNaturally = true :=
  (loop_done_iff_no_tool_use_or_end_turn modelDone sysTrivial mcpFail 0 0
    [⟨"user", [ContentBlock.text "go"]⟩]).2 (Or.inl (by decide))

/-- Counterexample to claim C6 as stated: when the model keeps requesting
tools for all 50 turns, the loop reports max turns reached — but the 50th
response's invocations ARE executed before the loop exits (50 executed
invocations, one per turn); only a 51st model call is skipped. -/
theorem max_turns_executes_final_invocations :
    (runAgent modelAlwaysTool sysTrivial mcpFail "go").turns = 50 ∧
      (runAgent modelAlwaysTool sysTrivial mcpFail "go").maxTurnsReported = true ∧
      (runAgent modelAlwaysTool sysTrivial mcpFail "go").completedNaturally = false ∧
      (runAgent modelAlwaysTool sysTrivial mcpFail "go").executed.length = 50 := by
  decide

/-- Claim C6 (amended): the turn counter starts at 0 and is incremented
exactly once per model call (final counter = number of model calls,
whatever the number of invocations per turn); it never exceeds 50; and a
run that does not complete naturally stops at exactly 50 turns with the
max-turns report — after executing the final turn's invocations, without a
51st model call. -/
theorem turn_counter_accounting (model : Model) (sys : Sys) (mcp : McpCall)
    (prompt : String) :
    (runAgent model sys mcp prompt).turns = (runAgent model sys mcp prompt).modelCalls ∧
    (runAgent model sys mcp prompt).turns ≤ 50 ∧
    ((runAgent model sys mcp prompt).completedNaturally = false →
      (runAgent model sys mcp prompt).turns = 50 ∧
      (runAgent model sys mcp prompt).maxTurnsReported = true) := by
  obtain ⟨h1, h2, h3⟩ := runFrom_accounting model sys mcp MAX_TURNS 0
    [⟨"user", [ContentBlock.text prompt]⟩]
  refine ⟨by simpa [runAgent] using h1, by simpa [runAgent, MAX_TURNS] using h2, ?_⟩
  intro hnc
  obtain ⟨h4, h5⟩ := h3 (by simpa [runAgent] using hnc)
  exact ⟨by simpa [runAgent, MAX_TURNS] using h4,
    by simpa [runAgent, MAX_TURNS] using h5⟩

/-- Witness for the amended C6. -/
theorem turn_counter_accounting_witness :
    (runAgent modelDone sysTrivial mcpFail "hi").turns =
        (runAgent modelDone sysTrivial mcpFail "hi").modelCalls ∧
      (runAgent modelDone sysTrivial mcpFail "hi").turns ≤ 50 :=
  ⟨(turn_counter_accounting modelDone sysTrivial mcpFail "hi").1,
    (turn_counter_accounting modelDone sysTrivial mcpFail "hi").2.1⟩

/-- Counterexample to claim C5 as stated: the failing remote tool's result
is fed back as a tool_result block whose content is the error text but
which is NOT marked `isError=true` — the block built on lines 507-511
carries no `is_error` field at all (`none`), and the loop continues. -/
theorem tool_error_result_lacks_isError_marking :
    (runAgent modelMcpOnce sysTrivial mcpFail "go").messages.get? 2 =
        some ⟨"user", [ContentBlock.toolResult "toolu_9" "MCP tool error: boom" none]⟩ ∧
      (runAgent modelMcpOnce sysTrivial mcpFail "go").turns = 2 ∧
      (runAgent modelMcpOnce sysTrivial mcpFail "go").completedNaturally = true := by
  decide

/-- Claim C5 (amended): a failing remote tool call is caught locally and
converted into a tool-result block whose content is the error message text
(`MCP tool error: <message>`), carrying no `is_error` marking; the block is
appended to the history and the loop proceeds to another model call — the
failure never aborts the loop. -/
theorem tool_failure_absorbed (model : Model) (sys : Sys) (mcp : McpCall)
    (fuel turn : Nat) (msgs : List Message) (i name : String) (input : ToolInput)
    (e : String)
    (hname : strStartsWith name "mcp_" = true)
    (herr : mcp (name.drop 4) input = Except.error e)
    (hresp : (model msgs).content = [ContentBlock.toolUse i name input])
    (hstop : (model msgs).stopReason ≠ "end_turn") :
    (⟨"user", [ContentBlock.toolResult i ("MCP tool error: " ++ e) none]⟩ : Message) ∈
      (runFrom model sys mcp (fuel + 2) turn msgs).messages ∧
    turn + 2 ≤ (runFrom model sys mcp (fuel + 2) turn msgs).turns := by
  have hbeq : ((model msgs).stopReason == "end_turn") = false :=
    beq_eq_false_iff_ne.mpr hstop
  have hcond : (!(hasToolUse (model msgs).content) ||
      ((model msgs).stopReason == "end_turn")) = false := by
    rw [hresp, hbeq]
    simp [hasToolUse, isToolUse]
  rw [runFrom_continue model sys mcp (fuel + 1) turn msgs hcond]
  dsimp only
  have hres : toolResultsFor sys mcp (model msgs).content =
      [ContentBlock.toolResult i ("MCP tool error: " ++ e) none] := by
    rw [hresp]
    simp [toolResultsFor, dispatchTool, hname, mcpToolResult, herr]
  constructor
  · apply runFrom_messages_mono
    rw [hres]
    exact List.mem_append_right _ (by simp)
  · have := runFrom_turns_lower model sys mcp fuel (turn + 1)
      ((msgs ++ [⟨"assistant", assistantContentOf (model msgs).content⟩]) ++
        [⟨"user", toolResultsFor sys mcp (model msgs).content⟩])
    omega

/-- Witness for the amended C5. -/
theorem tool_failure_absorbed_witness :
    (⟨"user", [ContentBlock.toolResult "toolu_9" ("MCP tool error: " ++ "boom") none]⟩ :
        Message) ∈
      (runFrom modelMcpOnce sysTrivial mcpFail 2 0
        [⟨"user", [ContentBlock.text "go"]⟩]).messages ∧
    0 + 2 ≤ (runFrom modelMcpOnce sysTrivial mcpFail 2 0
      [⟨"user", [ContentBlock.text "go"]⟩]).turns :=
  tool_failure_absorbed modelMcpOnce sysTrivial mcpFail 0 0
    [⟨"user", [ContentBlock.text "go"]⟩] "toolu_9" "mcp_list_pending_tasks"
    ⟨"", "", "", false⟩ "boom" (by decide) rfl (by decide) (by decide)

/-- Claim C7: tool dispatch is total and drives on the name alone — a name
starting with `mcp_` is routed to the RPC client's `callTool` with the
first four characters stripped; any other name goes to the built-in
executor, by exact match when it is a built-in name; a name matching
neither yields the `Unknown tool:` error result.  Every branch produces a
result string, never an exception. -/
theorem dispatch_total_by_name (sys : Sys) (mcp : McpCall) (name : String)
    (input : ToolInput) :
    (strStartsWith name "mcp_" = true →
      dispatchTool sys mcp name input = mcpToolResult (mcp (name.drop 4) input)) ∧
    (strStartsWith name "mcp_" = false → name ∈ builtinToolNames →
      dispatchTool sys mcp name input = executeBuiltinTool sys name input) ∧
    (strStartsWith name "mcp_" = false → ¬ name ∈ builtinToolNames →
      dispatchTool sys mcp name input = "Unknown tool: " ++ name) := by
  refine ⟨fun h => by simp [dispatchTool, h], fun h _ => by simp [dispatchTool, h],
    fun h hmem => ?_⟩
  have h1 : name ≠ "bash" := by
    intro hn
    exact hmem (by rw [hn]; decide)
  have h2 : name ≠ "read_file" := by
    intro hn
    exact hmem (by rw [hn]; decide)
  have h3 : name ≠ "write_file" := by
    intro hn
    exact hmem (by rw [hn]; decide)
  have h4 : name ≠ "list_files" := by
    intro hn
    exact hmem (by rw [hn]; decide)
  simp [dispatchTool, h, executeBuiltinTool, h1, h2, h3, h4]

/-- Witness for C7: the three routes at concrete names. -/
theorem dispatch_total_by_name_witness :
    dispatchTool sysTrivial mcpFail "mcp_x" ⟨"", "", "", false⟩ =
        mcpToolResult (mcpFail ("mcp_x".drop 4) ⟨"", "", "", false⟩) ∧
      dispatchTool sysTrivial mcpFail "bash" ⟨"", "", "", false⟩ =
        executeBuiltinTool sysTrivial "bash" ⟨"", "", "", false⟩ ∧
      dispatchTool sysTrivial mcpFail "frobnicate" ⟨"", "", "", false⟩ =
        "Unknown tool: " ++ "frobnicate" :=
  ⟨(dispatch_total_by_name sysTrivial mcpFail "mcp_x" ⟨"", "", "", false⟩).1 (by decide),
    (dispatch_total_by_name sysTrivial mcpFail "bash" ⟨"", "", "", false⟩).2.1
      (by decide) (by decide),
    (dispatch_total_by_name sysTrivial mcpFail "frobnicate" ⟨"", "", "", false⟩).2.2
      (by decide) (by decide)⟩

/-- Claim C8: when the shell runs `echo hi` with exit code 0, stdout
`"hi\n"` and empty stderr, the built-in executor returns exactly
`"Exit code: 0\nhi\n"` (no STDERR section); when the model's first response
requests the `bash` tool with that command, this string is appended to the
history as a tool_result block and the loop proceeds to a second model
call. -/
theorem bash_echo_scenario (model : Model) (sys : Sys) (mcp : McpCall)
    (prompt i : String)
    (hshell : sys.shell "echo hi" = BashOut.closed 0 "hi\n" "")
    (hresp : model [⟨"user", [ContentBlock.text prompt]⟩] =
      ⟨[ContentBlock.toolUse i "bash" ⟨"echo hi", "", "", false⟩], "tool_use"⟩) :
    executeBuiltinTool sys "bash" ⟨"echo hi", "", "", false⟩ = "Exit code: 0\nhi\n" ∧
    (⟨"user", [ContentBlock.toolResult i "Exit code: 0\nhi\n" none]⟩ : Message) ∈
      (runAgent model sys mcp prompt).messages ∧
    2 ≤ (runAgent model sys mcp prompt).modelCalls := by
  have hbash : executeBash sys.shell "echo hi" = ⟨true, "hi\n", 0⟩ := by
    rw [executeBash, hshell]
    decide
  have hexec : executeBuiltinTool sys "bash" ⟨"echo hi", "", "", false⟩ =
      "Exit code: 0\nhi\n" := by
    rw [executeBuiltinTool, if_pos rfl]
    dsimp only
    rw [hbash]
    decide
  have hkey : runAgent model sys mcp prompt =
      runFrom model sys mcp (49 + 1) 0 [⟨"user", [ContentBlock.text prompt]⟩] := rfl
  have hcond : (!(hasToolUse
        (model [⟨"user", [ContentBlock.text prompt]⟩]).content) ||
      ((model [⟨"user", [ContentBlock.text prompt]⟩]).stopReason == "end_turn")) =
      false := by
    have hb : ("tool_use" == "end_turn") = false := by decide
    rw [hresp]
    simp [hasToolUse, isToolUse, hb]
  have hsw : strStartsWith "bash" "mcp_" = false := by decide
  have hres : toolResultsFor sys mcp
      (model [⟨"user", [ContentBlock.text prompt]⟩]).content =
      [ContentBlock.toolResult i "Exit code: 0\nhi\n" none] := by
    rw [hresp]
    simp [toolResultsFor, dispatchTool, hsw, hexec]
  refine ⟨hexec, ?_, ?_⟩
  · rw [hkey, runFrom_continue model sys mcp 49 0 _ hcond]
    dsimp only
    apply runFrom_messages_mono
    rw [hres]
    exact List.mem_append_right _ (by simp)
  · obtain ⟨h1, _, _⟩ := runFrom_accounting model sys mcp (49 + 1) 0
      [⟨"user", [ContentBlock.text prompt]⟩]
    have hturns : 2 ≤ (runFrom model sys mcp (49 + 1) 0
        [⟨"user", [ContentBlock.text prompt]⟩]).turns := by
      rw [runFrom_continue model sys mcp 49 0 _ hcond]
      dsimp only
      have := runFrom_turns_lower_of_pos model sys mcp (show 1 ≤ 49 by omega) (0 + 1)
        (([⟨"user", [ContentBlock.text prompt]⟩] ++
          [⟨"assistant", assistantContentOf
            (model [⟨"user", [ContentBlock.text prompt]⟩]).content⟩]) ++
          [⟨"user", toolResultsFor sys mcp
            (model [⟨"user", [ContentBlock.text prompt]⟩]).content⟩])
      omega
    rw [hkey]
    omega

/-- Witness for C8: a concrete shell oracle and a model that requests
`bash {"command":"echo hi"}` on turn 1. -/
theorem bash_echo_scenario_witness :
    executeBuiltinTool sysEcho "bash" ⟨"echo hi", "", "", false⟩ =
        "Exit code: 0\nhi\n" ∧
      (⟨"user", [ContentBlock.toolResult "toolu_2" "Exit code: 0\nhi\n" none]⟩ :
          Message) ∈
        (runAgent modelBashOnce sysEcho mcpFail "go").messages ∧
      2 ≤ (runAgent modelBashOnce sysEcho mcpFail "go").modelCalls :=
  bash_echo_scenario modelBashOnce sysEcho mcpFail "go" "toolu_2"
    (by decide) (by decide)

/-- Claim C10: truncation to 500 characters plus the `... (truncated)`
marker applies only to the operator console line; the tool_result block
appended to the history carries the full untruncated result. -/
theorem truncation_only_console (model : Model) (sys : Sys) (mcp : McpCall)
    (fuel turn : Nat) (msgs : List Message) (i name : String) (input : ToolInput)
    (hresp : (model msgs).content = [ContentBlock.toolUse i name input])
    (hstop : (model msgs).stopReason ≠ "end_turn")
    (hlong : 500 < (dispatchTool sys mcp name input).length) :
    (⟨"user", [ContentBlock.toolResult i (dispatchTool sys mcp name input) none]⟩ :
        Message) ∈
      (runFrom model sys mcp (fuel + 1) turn msgs).messages ∧
    toolLogsFor sys mcp (model msgs).content =
      [logLineFor (dispatchTool sys mcp name input)] ∧
    truncateForLog (dispatchTool sys mcp name input) =
      (dispatchTool sys mcp name input).take 500 ++ "\n... (truncated)" := by
  have hbeq : ((model msgs).stopReason == "end_turn") = false :=
    beq_eq_false_iff_ne.mpr hstop
  have hcond : (!(hasToolUse (model msgs).content) ||
      ((model msgs).stopReason == "end_turn")) = false := by
    rw [hresp, hbeq]
    simp [hasToolUse, isToolUse]
  refine ⟨?_, ?_, ?_⟩
  · rw [runFrom_continue model sys mcp fuel turn msgs hcond]
    dsimp only
    apply runFrom_messages_mono
    rw [hresp]
    refine List.mem_append_right _ ?_
    simp [toolResultsFor]
  · rw [hresp]
    simp [toolLogsFor]
  · rw [truncateForLog, if_pos hlong]

/-- Witness for C10: a remote tool returning 501 characters — the history
block holds all 501, the console line only the truncation. -/
theorem truncation_only_console_witness :
    (⟨"user", [ContentBlock.toolResult "toolu_3"
        (dispatchTool sysTrivial mcpLong "mcp_big" ⟨"", "", "", false⟩) none]⟩ :
        Message) ∈
      (runFrom modelLongOnce sysTrivial mcpLong 1 0
        [⟨"user", [ContentBlock.text "go"]⟩]).messages ∧
    toolLogsFor sysTrivial mcpLong
        (modelLongOnce [⟨"user", [ContentBlock.text "go"]⟩]).content =
      [logLineFor (dispatchTool sysTrivial mcpLong "mcp_big" ⟨"", "", "", false⟩)] ∧
    truncateForLog (dispatchTool sysTrivial mcpLong "mcp_big" ⟨"", "", "", false⟩) =
      (dispatchTool sysTrivial mcpLong "mcp_big" ⟨"", "", "", false⟩).take 500 ++
        "\n... (truncated)" :=
  truncation_only_console modelLongOnce sysTrivial mcpLong 0 0
    [⟨"user", [ContentBlock.text "go"]⟩] "toolu_3" "mcp_big" ⟨"", "", "", false⟩
    (by decide) (by decide)
    (by set_option maxRecDepth 4000 in decide)

end Autoship
